import Mathlib

/-!
Verification of the AutomationZ Server Backup Scheduler core
(`src/app/main.py`) against its natural-language specification.

The Python core is shallowly embedded:
* Python `str` values are modelled either as Lean `String` (identifiers,
  path segments) or as `List Char` (when character-level reasoning or a
  kernel-computable lexicographic order is needed).  All string
  manipulation is written over `String.data` so that every definition
  reduces in the kernel.
* Filesystem and FTP effects are modelled by explicit data: the remote
  tree is an inductive `RTree`/`RForest`, local paths are segment lists,
  and a job run produces an explicit list of performed actions (`Act`).
* An uncaught Python exception aborting a run is modelled by a `Bool`
  "completed" flag paired with the list of actions performed before the
  abort, or by `Except` for `safe_join_local` (which raises before any
  filesystem write happens).
-/

namespace AutomationZ

/-! ## Character/string helpers (kernel-computable models of Python str ops) -/

/-- Model of `path.replace("\\", "/").replace("\r", "").replace("\n", "")`
(`main.py` line 41): backslashes become forward slashes, carriage returns
and newlines are removed.  Replacing first and filtering afterwards is
equivalent because the replacement never produces a CR/LF and never maps
anything to a backslash. -/
def cleanChars (s : List Char) : List Char :=
  (s.map fun c => if c = '\\' then '/' else c).filter fun c => c != '\r' && c != '\n'

/-- Model of Python `str.split("/")` on a character list: splits at every
slash, keeping empty segments, and is never empty (splitting the empty
string yields `[[]]`, as in Python). -/
def splitSlash : List Char → List (List Char)
  | [] => [[]]
  | c :: cs =>
    if c = '/' then [] :: splitSlash cs
    else
      match splitSlash cs with
      | [] => [[c]]
      | h :: t => (c :: h) :: t

/-- Model of Python `s.lstrip("/")`: removes every leading slash. -/
def lstripSlash (s : String) : String :=
  String.mk (s.data.dropWhile fun c => c = '/')

/-- Model of Python `s.rstrip("/")`: removes every trailing slash. -/
def rstripSlash (s : String) : String :=
  String.mk ((s.data.reverse.dropWhile fun c => c = '/').reverse)

/-- Model of Python `s.split("/")[-1]` (used on `remote_full` in
`run_job`, `main.py` line 424): `split("/")` is never empty, so `[-1]`
always exists. -/
def lastSlashSeg (s : String) : String :=
  String.mk ((splitSlash s.data).getLastD [])

/-- Model of Python `str.lower()` on the ASCII mode strings used by jobs
(`main.py` lines 404, 430). -/
def lowerStr (s : String) : String :=
  String.mk (s.data.map Char.toLower)

/-! ## PathResolver: `norm_remote` (`main.py` lines 39-46) -/

/-- Model of `if not p.startswith("/"): p = "/" + p` (`main.py` lines
42-43): prepend a slash when the cleaned path does not already start
with one. -/
def addLeadSlash (p : List Char) : List Char :=
  if p.head? = some '/' then p else '/' :: p

/-- Model of `if len(p) > 1 and p.endswith("/"): p = p[:-1]`
(`main.py` lines 44-45): drop one trailing slash when the length
exceeds 1. -/
def stripTrailSlash (q : List Char) : List Char :=
  if 1 < q.length ∧ q.getLast? = some '/' then q.dropLast else q

/-- Faithful model of `norm_remote`: clean the characters, prepend a
slash when missing, then drop one trailing slash when the length
exceeds 1. -/
def norm_remote (s : List Char) : List Char :=
  stripTrailSlash (addLeadSlash (cleanChars s))

/-- The cleaned form of a path ends in two (or more) slashes.  This is
exactly the situation in which `norm_remote` leaves a trailing slash
behind, since it strips at most one. -/
def endsTwoSlash (l : List Char) : Prop :=
  l.getLast? = some '/' ∧ l.dropLast.getLast? = some '/'

instance (l : List Char) : Decidable (endsTwoSlash l) := by
  unfold endsTwoSlash; infer_instance

/-! ## PathResolver: `safe_join_local` (`main.py` lines 224-230) -/

/-- The segment list obtained from the relative path in
`safe_join_local`: Python does `rel.replace("/", os.sep).lstrip(os.sep)`
(identity replacement on POSIX, then stripping leading separators) and
the subsequent `root / rel` parses `rel` on the separator. -/
def relSegs (rel : String) : List String :=
  (splitSlash (rel.data.dropWhile fun c => c = '/')).map String.mk

/-- Lexical model of `(root / rel).resolve()` on an already-resolved
absolute `root` given as a segment list: empty and `"."` segments vanish,
`".."` pops the last segment (clamping at the filesystem root, as
`resolve()` does), anything else is appended.  Symbolic links are outside
the model. -/
def resolveSegs (base : List String) : List String → List String
  | [] => base
  | s :: rest =>
    if s = "" ∨ s = "." then resolveSegs base rest
    else if s = ".." then resolveSegs base.dropLast rest
    else resolveSegs (base ++ [s]) rest

/-- Model of `pathlib.Path.parents` for a segment list: every proper
prefix of the path. -/
def pathParents (l : List String) : List (List String) :=
  (List.range l.length).map fun k => l.take k

/-- Faithful model of `safe_join_local`: resolve `root / rel` and raise
`ValueError("Unsafe path: " + rel)` when the result is neither the
(resolved) root nor a descendant of it.  The function performs no
filesystem write: it either returns the resolved path or raises before
any effect. -/
def safe_join_local (root : List String) (rel : String) : Except String (List String) :=
  let out := resolveSegs root (relSegs rel)
  let rr := root
  if out ≠ rr ∧ rr ∉ pathParents out then
    Except.error ("Unsafe path: " ++ rel)
  else
    Except.ok out

instance {ε α : Type} [DecidableEq ε] [DecidableEq α] : DecidableEq (Except ε α)
  | .error e, .error f =>
    if h : e = f then .isTrue (by rw [h]) else .isFalse (by intro c; cases c; exact h rfl)
  | .error _, .ok _ => .isFalse (by intro c; cases c)
  | .ok _, .error _ => .isFalse (by intro c; cases c)
  | .ok a, .ok b =>
    if h : a = b then .isTrue (by rw [h]) else .isFalse (by intro c; cases c; exact h rfl)

/-! ## RemoteFileClient: `FTPClient.list_dir` (`main.py` lines 193-214) -/

/-- Model of `r.replace("\\", "/")` followed by `r.split("/")[-1]` in the
`nlst` fallback of `list_dir` (`main.py` lines 206-207). -/
def lastSegment (r : String) : String :=
  String.mk ((splitSlash (r.data.map fun c => if c = '\\' then '/' else c)).getLastD [])

/-- Model of the first-seen de-duplication loop of `list_dir`
(`main.py` lines 208-211): `seen` is the set of names already emitted. -/
def dedupSeen (seen : List String) : List String → List String
  | [] => []
  | x :: xs => if x ∈ seen then dedupSeen seen xs else x :: dedupSeen (x :: seen) xs

/-- Faithful model of `FTPClient.list_dir`.  The two listing strategies
are modelled by their outcomes: `mlsd = some entries` means the
machine-parsable listing succeeded and yielded `entries` (name part of
each `(name, facts)` pair), `none` means it raised (modelled as raising
before yielding); likewise `nlst` for the name-only fallback.  On `mlsd`
success, `.` and `..` are skipped; on fallback, the final path segment of
each raw name is taken and de-duplicated in first-seen order; if both
fail the result is the empty list, not an error. -/
def list_dir (mlsd : Option (List String)) (nlst : Option (List String)) : List String :=
  match mlsd with
  | some entries => entries.filter fun n => n != "." && n != ".."
  | none =>
    match nlst with
    | some raw => dedupSeen [] (raw.map lastSegment)
    | none => []

/-! ## Data model: `BackupJob` (`main.py` lines 87-99) -/

/-- Faithful model of the `BackupJob` dataclass.  `hour`/`minute` are
naturals (Python ints produced by `int(...)`; the scheduler only tests
them for equality), `keep_last` is an integer because a negative value is
representable and treated specially by the cleanup guard. -/
structure Job where
  name : String
  enabled : Bool
  profile : String
  mode : String
  remote_source : String
  local_target : String
  days : List String
  hour : Nat
  minute : Nat
  include_subdirs : Bool
  keep_last : Int
  dry_run : Bool
deriving DecidableEq, Repr

/-! ## Scheduler: `App.check_and_run_due_jobs` (`main.py` lines 353-370) -/

/-- The current wall-clock data a scheduler tick observes: weekday tag
(`DAYS[...]`), hour and minute. -/
structure Time where
  day : String
  hour : Nat
  minute : Nat
deriving DecidableEq, Repr

/-- Model of Python `f"{n:02d}"` for the hour/minute fields. -/
def pad2 (n : Nat) : String :=
  if n < 10 then "0" ++ toString n else toString n

/-- Model of `key_time = f"{day}-{hh:02d}:{mm:02d}"` (`main.py` line 358). -/
def keyTime (t : Time) : String :=
  t.day ++ "-" ++ pad2 t.hour ++ ":" ++ pad2 t.minute

/-- The in-memory de-dup table `self.last_run_key : Dict[str, str]`
(`main.py` line 267), modelled as an association list where the most
recent binding for a name shadows older ones. -/
def SchedState := List (String × String)

/-- Dictionary lookup `self.last_run_key.get(job.name)`. -/
def lookupKey (st : SchedState) (n : String) : Option String :=
  (List.find? (fun p => p.1 == n) st).map Prod.snd

/-- Dictionary assignment `self.last_run_key[job.name] = key_time`. -/
def insertKey (st : SchedState) (n k : String) : SchedState :=
  (n, k) :: st

/-- The four `continue` guards of the scheduler loop, as one boolean:
a job fires when it is enabled, today's weekday tag is in its day set,
its configured hour and minute equal the current ones, and its last
fired key differs from the current key. -/
def dueB (j : Job) (t : Time) (st : SchedState) : Bool :=
  j.enabled && j.days.contains t.day && (j.hour == t.hour) && (j.minute == t.minute)
    && !(lookupKey st j.name == some (keyTime t))

/-- Faithful model of one pass of `check_and_run_due_jobs` over the job
list: jobs are visited in list order; a due job is recorded in the
de-dup table (before `run_job` is invoked) and collected as fired. -/
def checkTick (t : Time) : List Job → SchedState → List Job × SchedState
  | [], st => ([], st)
  | j :: rest, st =>
    if dueB j t st then
      ((j :: (checkTick t rest (insertKey st j.name (keyTime t))).1),
        (checkTick t rest (insertKey st j.name (keyTime t))).2)
    else
      checkTick t rest st

/-- A sequence of scheduler ticks (`_tick` firing every `tick_seconds`),
each observing a wall-clock `Time`, threading the de-dup table through;
returns all fired jobs in order. -/
def runTicks (jobs : List Job) : List Time → SchedState → List Job × SchedState
  | [], st => ([], st)
  | t :: ts, st =>
    ((checkTick t jobs st).1 ++ (runTicks jobs ts (checkTick t jobs st).2).1,
      (runTicks jobs ts (checkTick t jobs st).2).2)

/-- Number of fired jobs carrying a given name. -/
def countName (n : String) (fired : List Job) : Nat :=
  List.countP (fun j => j.name == n) fired

/-! ## BackupExecutor: `App.run_job` and `App._download_dir`
(`main.py` lines 388-444 and 458-470) -/

mutual
/-- The remote tree as observed through `is_dir`/`list_dir`: a node is a
plain file or a directory with a (finite) named forest of children. -/
inductive RTree where
  | file : RTree
  | dir : RForest → RTree
inductive RForest where
  | nil : RForest
  | cons : String → RTree → RForest → RForest
end

/-- Model of `FTPClient.is_dir` (`main.py` lines 180-191): observes
whether the node is a directory. -/
def isDirB : RTree → Bool
  | .file => false
  | .dir _ => true

/-- Observable side effects of a run, in order: entering a remote folder
(the "Entering folder" log line), a `download_file` call writing the
given local segment path, the "Downloaded" log line for a remote path,
and the snapshot-cleanup invocation. -/
inductive Act where
  | enterDir : String → Act
  | download : List String → Act
  | logDownload : String → Act
  | cleanup : Act
deriving DecidableEq, Repr

mutual
/-- Faithful model of `_download_dir` together with its per-entry loop.
`root` is `local_root` as a segment list, `rd` the remote directory
string, `pre` the `rel_prefix` string.  The boolean is false when an
uncaught exception (a `safe_join_local` failure) aborts the run; the
action list holds the effects performed up to that point.  `file` never
occurs at the top of `downloadDir` in the real program (it is only
called on directories). -/
def downloadDir (j : Job) (root : List String) (rd pre : String) : RTree → List Act × Bool
  | .file => ([], true)
  | .dir f =>
    (Act.enterDir rd :: (downloadItems j root rd pre f).1, (downloadItems j root rd pre f).2)

def downloadItems (j : Job) (root : List String) (rd pre : String) : RForest → List Act × Bool
  | .nil => ([], true)
  | .cons name child rest =>
    if j.include_subdirs && isDirB child then
      if (downloadDir j root (rstripSlash rd ++ "/" ++ name) (lstripSlash (pre ++ "/" ++ name)) child).2 then
        ((downloadDir j root (rstripSlash rd ++ "/" ++ name) (lstripSlash (pre ++ "/" ++ name)) child).1
            ++ (downloadItems j root rd pre rest).1,
          (downloadItems j root rd pre rest).2)
      else
        ((downloadDir j root (rstripSlash rd ++ "/" ++ name) (lstripSlash (pre ++ "/" ++ name)) child).1, false)
    else
      match safe_join_local root (lstripSlash (pre ++ "/" ++ name)) with
      | .error _ => ([], false)
      | .ok target =>
        ((if j.dry_run then [] else [Act.download target])
            ++ Act.logDownload (rstripSlash rd ++ "/" ++ name) :: (downloadItems j root rd pre rest).1,
          (downloadItems j root rd pre rest).2)
end

/-- Specification-side description of the walk when `include_subdirs`
is false: every listed entry, directory or not, is treated as a leaf —
its local target is resolved and a download is attempted (suppressed
only by `dry_run`); no recursion into subdirectories happens.  Used to
state what `downloadItems` actually does in that case, against the
spec's words that directory entries are "silently skipped". -/
def flatLeafWalk (j : Job) (root : List String) (rd pre : String) : RForest → List Act × Bool
  | .nil => ([], true)
  | .cons name _ rest =>
    match safe_join_local root (lstripSlash (pre ++ "/" ++ name)) with
    | .error _ => ([], false)
    | .ok target =>
      ((if j.dry_run then [] else [Act.download target])
          ++ Act.logDownload (rstripSlash rd ++ "/" ++ name) :: (flatLeafWalk j root rd pre rest).1,
        (flatLeafWalk j root rd pre rest).2)

/-- Destination root of a run relative to `local_base`
(`main.py` lines 404-407): `p.name / job.name / <stamp>` in snapshot
mode (mode compared lowercased), `p.name / job.name / "MIRROR"` in every
other mode. -/
def destRoot (j : Job) (profileName stamp : String) : List String :=
  if lowerStr j.mode == "snapshot" then [profileName, j.name, stamp]
  else [profileName, j.name, "MIRROR"]

/-- The cleanup guard of `run_job` (`main.py` line 430):
`job.mode.lower() == "snapshot" and job.keep_last and job.keep_last > 0`
(Python truthiness of the int, then the comparison). -/
def snapshotCleanupRuns (j : Job) : Bool :=
  lowerStr j.mode == "snapshot" && j.keep_last != 0 && decide (0 < j.keep_last)

/-- Faithful model of the transfer part of `run_job` (`main.py` lines
418-431), given the resolved `remote_full` string and the remote node it
denotes: directories are walked by `_download_dir`, a non-directory is
downloaded as a single file named by the last path segment, and snapshot
cleanup is invoked afterwards when the run completed and the cleanup
guard holds. -/
def run_transfer (j : Job) (root : List String) (remoteFull : String) (src : RTree) :
    List Act × Bool :=
  if isDirB src then
    downloadDir j root remoteFull "" src
  else
    match safe_join_local root (lastSlashSeg remoteFull) with
    | .error _ => ([], false)
    | .ok target =>
      ((if j.dry_run then [] else [Act.download target]) ++ [Act.logDownload remoteFull], true)

/-- Faithful model of `run_job` after connecting: perform the transfer
(tree walk or single file), then — only when the transfer finished
without an exception and the cleanup guard holds — invoke the snapshot
cleanup. -/
def run_job (j : Job) (profileName stamp remoteFull : String) (src : RTree) : List Act × Bool :=
  if (run_transfer j (destRoot j profileName stamp) remoteFull src).2 && snapshotCleanupRuns j then
    ((run_transfer j (destRoot j profileName stamp) remoteFull src).1 ++ [Act.cleanup],
      (run_transfer j (destRoot j profileName stamp) remoteFull src).2)
  else
    run_transfer j (destRoot j profileName stamp) remoteFull src

/-- The local paths written by `download_file` during a run. -/
def downloadsOf (acts : List Act) : List (List String) :=
  acts.filterMap fun a => match a with | .download t => some t | _ => none

/-- The "Downloaded" log lines emitted during a run. -/
def logsOf (acts : List Act) : List String :=
  acts.filterMap fun a => match a with | .logDownload r => some r | _ => none

/-! ## RetentionManager: `App._cleanup_snapshots` (`main.py` lines 446-456) -/

/-- Model of `snaps.sort(key=lambda p: p.name, reverse=True)`: the
snapshot directory names (as character lists, whose lexicographic order
models Python string comparison) sorted descending.  Python's stable
sort and this insertion sort agree because the descending order is
total and antisymmetric on names. -/
def sortSnapsDesc (snaps : List (List Char)) : List (List Char) :=
  List.insertionSort (fun a b : List Char => b ≤ a) snaps

/-- Faithful model of `_cleanup_snapshots`.  `jobDir = none` models a
non-existing `job_dir` (the function returns immediately); otherwise
`jobDir = some snaps` holds the immediate subdirectory names in
arbitrary filesystem iteration order.  `removeFails d = true` models
`shutil.rmtree(d)` raising; the `try/except` logs a warning and the loop
continues, so every snapshot beyond the first `keep` of the descending
order gets its own removal attempt.  The result pairs each attempted
directory with whether its removal succeeded.  (`keep_last` is a `Nat`
here: the caller guards `keep_last > 0`.) -/
def cleanup_snapshots (jobDir : Option (List (List Char))) (keep : Nat)
    (removeFails : List Char → Bool) : List (List Char × Bool) :=
  match jobDir with
  | none => []
  | some snaps => ((sortSnapsDesc snaps).drop keep).map fun d => (d, !removeFails d)

/-! ## Concrete instances used to instantiate hypothesised theorems -/

/-- A concrete job, used to evaluate the claim theorems at checkable
inputs. -/
def jobEx : Job :=
  { name := "world-backup", enabled := true, profile := "main", mode := "snapshot",
    remote_source := "/data", local_target := "/backups", days := ["Sat"],
    hour := 3, minute := 0, include_subdirs := true, keep_last := 10, dry_run := false }

/-- A second job sharing `jobEx`'s name but differing in its source. -/
def jobEx2 : Job := { jobEx with remote_source := "/other" }

/-- A tick time matching `jobEx`'s schedule. -/
def timeEx : Time := { day := "Sat", hour := 3, minute := 0 }

/-- A one-entry remote directory whose only entry is itself a directory. -/
def treeEx : RTree := .dir (.cons "sub" (.dir .nil) .nil)

/-! ## Lemmas about `norm_remote` -/

lemma mem_cleanChars {c : Char} {s : List Char} (h : c ∈ cleanChars s) :
    c ≠ '\\' ∧ c ≠ '\r' ∧ c ≠ '\n' := by
  unfold cleanChars at h
  rw [List.mem_filter] at h
  obtain ⟨hmap, hpred⟩ := h
  simp only [Bool.and_eq_true, bne_iff_ne, ne_eq] at hpred
  rw [List.mem_map] at hmap
  obtain ⟨a, _, rfl⟩ := hmap
  refine ⟨?_, hpred.1, hpred.2⟩
  by_cases ha : a = '\\' <;> simp [ha]

lemma cleanChars_of_clean {l : List Char}
    (h : ∀ c ∈ l, c ≠ '\\' ∧ c ≠ '\r' ∧ c ≠ '\n') : cleanChars l = l := by
  unfold cleanChars
  rw [List.map_congr_left fun a ha => if_neg (h a ha).1, List.map_id',
    List.filter_eq_self.mpr]
  intro a ha
  simp [(h a ha).2.1, (h a ha).2.2]

lemma mem_addLeadSlash {c : Char} {p : List Char} (h : c ∈ addLeadSlash p) :
    c = '/' ∨ c ∈ p := by
  unfold addLeadSlash at h
  split at h
  · exact Or.inr h
  · rcases List.mem_cons.mp h with h | h
    · exact Or.inl h
    · exact Or.inr h

lemma mem_stripTrailSlash {c : Char} {q : List Char} (h : c ∈ stripTrailSlash q) :
    c ∈ q := by
  unfold stripTrailSlash at h
  split at h
  · exact q.dropLast_sublist.subset h
  · exact h

lemma addLeadSlash_head (p : List Char) : (addLeadSlash p).head? = some '/' := by
  unfold addLeadSlash
  split
  · assumption
  · rfl

lemma head?_dropLast {l : List Char} (h : 1 < l.length) :
    l.dropLast.head? = l.head? := by
  match l, h with
  | a :: b :: t, _ => simp [List.dropLast]

lemma stripTrailSlash_head (q : List Char) :
    (stripTrailSlash q).head? = q.head? := by
  unfold stripTrailSlash
  split
  · next h => exact head?_dropLast h.1
  · rfl

lemma not_endsTwo_addLeadSlash {p : List Char} (h : ¬ endsTwoSlash p) :
    ¬ endsTwoSlash (addLeadSlash p) := by
  unfold addLeadSlash
  split
  · exact h
  next hp =>
    rcases p.eq_nil_or_concat with rfl | ⟨u, a, rfl⟩
    · intro hh
      simp [endsTwoSlash] at hh
    · rw [List.concat_eq_append] at h hp ⊢
      intro hh
      obtain ⟨h1, h2⟩ := hh
      rw [show ('/' :: (u ++ [a])) = ('/' :: u) ++ [a] from rfl,
        List.getLast?_concat] at h1
      rw [show ('/' :: (u ++ [a])) = ('/' :: u) ++ [a] from rfl,
        List.dropLast_concat] at h2
      rcases u.eq_nil_or_concat with rfl | ⟨v, b, rfl⟩
      · exact hp (by simp_all)
      · simp only [List.concat_eq_append] at h h2
        apply h
        refine ⟨by rw [List.getLast?_concat]; exact h1, ?_⟩
        simp only [List.concat_eq_append, List.dropLast_concat]
        rw [show ('/' :: (v ++ [b])) = ('/' :: v) ++ [b] from rfl,
          List.getLast?_concat] at h2
        rw [List.getLast?_concat]
        exact h2

lemma stripTrail_root {q : List Char} (h : ¬ endsTwoSlash q)
    (hl : (stripTrailSlash q).getLast? = some '/') : stripTrailSlash q = ['/'] := by
  unfold stripTrailSlash at hl ⊢
  by_cases hc : 1 < q.length ∧ q.getLast? = some '/'
  · rw [if_pos hc] at hl
    exact absurd ⟨hc.2, hl⟩ h
  · rw [if_neg hc] at hl ⊢
    have hlen : ¬ 1 < q.length := fun hA => hc ⟨hA, hl⟩
    rcases q with _ | ⟨c, _ | ⟨d, t⟩⟩
    · simp at hl
    · simp_all
    · exact absurd (by simp [List.length_cons]) hlen

lemma norm_remote_no_trailing {s : List Char} (h : ¬ endsTwoSlash (cleanChars s))
    (hl : (norm_remote s).getLast? = some '/') : norm_remote s = ['/'] :=
  stripTrail_root (not_endsTwo_addLeadSlash h) hl

lemma norm_remote_clean {s : List Char} {c : Char} (hc : c ∈ norm_remote s) :
    c ≠ '\\' ∧ c ≠ '\r' ∧ c ≠ '\n' := by
  rcases mem_addLeadSlash (mem_stripTrailSlash hc) with rfl | hm
  · exact ⟨by decide, by decide, by decide⟩
  · exact mem_cleanChars hm

lemma norm_remote_head (s : List Char) : (norm_remote s).head? = some '/' := by
  unfold norm_remote
  rw [stripTrailSlash_head, addLeadSlash_head]

/-! ## Claim theorems: `norm_remote` (C7, C8) -/

/-- C7 (counterexample): the claim says the result of `normalizeRemote`
"has a single leading slash, and has no trailing slash unless the result
is the root path `/` itself".  Both parts fail on concrete inputs:
`norm_remote "//a" = "//a"` begins with two slashes, and
`norm_remote "a//" = "/a/"` ends with a slash while being different from
`"/"` (only one trailing slash is stripped). -/
theorem norm_remote_shape_cex :
    (norm_remote "//a".data).take 2 = ['/', '/'] ∧
    (norm_remote "a//".data).getLast? = some '/' ∧ norm_remote "a//".data ≠ ['/'] := by
  decide

/-- C7 (amended): `norm_remote` is a pure total function; its result
contains no backslash (each was converted to a forward slash), no
carriage return and no newline, and starts with a slash.  A slash is
prepended only when missing, so an input starting with several slashes
keeps them; and only one trailing slash is stripped, so the result has
no trailing slash (unless it is `"/"` itself) only when the cleaned
input does not end in two or more slashes. -/
theorem norm_remote_shape (s : List Char) :
    (∀ c ∈ norm_remote s, c ≠ '\\' ∧ c ≠ '\r' ∧ c ≠ '\n') ∧
    (norm_remote s).head? = some '/' ∧
    (¬ endsTwoSlash (cleanChars s) →
      (norm_remote s).getLast? = some '/' → norm_remote s = ['/']) :=
  ⟨fun _ hc => norm_remote_clean hc, norm_remote_head s,
    fun h hl => norm_remote_no_trailing h hl⟩

/-- C8 (counterexample): `norm_remote` is not idempotent: on `"a//"` it
yields `"/a/"`, and a second application strips the leftover trailing
slash, yielding `"/a"`. -/
theorem norm_remote_idem_cex :
    norm_remote (norm_remote "a//".data) ≠ norm_remote "a//".data := by
  decide

/-- C8 (amended): `norm_remote` is idempotent on every input whose
cleaned form (backslashes replaced, CR/LF removed) does not end in two
or more slashes.  The condition is sufficient, not necessary (the input
`"//"` normalizes to `"/"`, a fixed point, despite its double slash);
idempotence does not hold in general, as the counterexample `"a//"`
shows, where a second application strips another trailing slash. -/
theorem norm_remote_idem (s : List Char) (h : ¬ endsTwoSlash (cleanChars s)) :
    norm_remote (norm_remote s) = norm_remote s := by
  have hclean : cleanChars (norm_remote s) = norm_remote s :=
    cleanChars_of_clean fun _ hc => norm_remote_clean hc
  have hlead : addLeadSlash (norm_remote s) = norm_remote s := by
    unfold addLeadSlash
    rw [if_pos (norm_remote_head s)]
  show stripTrailSlash (addLeadSlash (cleanChars (norm_remote s))) = norm_remote s
  rw [hclean, hlead]
  by_cases hl : (norm_remote s).getLast? = some '/'
  · rw [norm_remote_no_trailing h hl]
    decide
  · unfold stripTrailSlash
    rw [if_neg fun hc => hl hc.2]

/-- C8 (witness): a concrete instantiation of `norm_remote_idem` at
`"a/b/"`. -/
theorem norm_remote_idem_witness :
    ¬ endsTwoSlash (cleanChars "a/b/".data) ∧
    norm_remote (norm_remote "a/b/".data) = norm_remote "a/b/".data :=
  ⟨by decide, norm_remote_idem "a/b/".data (by decide)⟩

/-! ## Lemmas about `safe_join_local` (C2) -/

lemma mem_pathParents {p l : List String} :
    p ∈ pathParents l ↔ ∃ k, k < l.length ∧ l.take k = p := by
  simp [pathParents, List.mem_map, List.mem_range]

lemma pathParents_iff {p l : List String} :
    p ∈ pathParents l ↔ p <+: l ∧ p ≠ l := by
  rw [mem_pathParents]
  constructor
  · rintro ⟨k, hk, rfl⟩
    refine ⟨List.take_prefix k l, fun heq => ?_⟩
    have := congrArg List.length heq
    rw [List.length_take] at this
    omega
  · rintro ⟨hpre, hne⟩
    refine ⟨p.length, ?_, (List.prefix_iff_eq_take.mp hpre).symm⟩
    have hle := hpre.length_le
    rcases lt_or_eq_of_le hle with h | h
    · exact h
    · exact absurd (hpre.eq_of_length h) hne

/-! ## Claim theorem: `safe_join_local` (C2) -/

/-- C2: `safe_join_local root rel` resolves `root / rel` lexically and
returns the resolved path exactly when it equals `root` or is a
descendant of it (`root` is a prefix of the resolved segment list);
otherwise it raises `ValueError("Unsafe path: ...")`, and since the
raise happens before any filesystem operation, no write is performed
(the function is pure in the model).  In particular a `"../../etc/passwd"`
traversal out of `/home/user/backups` is rejected. -/
theorem safe_join_local_spec (root : List String) (rel : String) :
    safe_join_local root rel =
      (if root <+: resolveSegs root (relSegs rel)
       then Except.ok (resolveSegs root (relSegs rel))
       else Except.error ("Unsafe path: " ++ rel)) ∧
    safe_join_local ["home", "user", "backups"] "../../etc/passwd" =
      Except.error "Unsafe path: ../../etc/passwd" := by
  constructor
  · show (if resolveSegs root (relSegs rel) ≠ root ∧
        root ∉ pathParents (resolveSegs root (relSegs rel)) then _ else _) = _
    by_cases hp : root <+: resolveSegs root (relSegs rel)
    · rw [if_pos hp, if_neg]
      rintro ⟨hne, hnm⟩
      exact hnm (pathParents_iff.mpr ⟨hp, fun heq => hne heq.symm⟩)
    · rw [if_neg hp, if_pos]
      constructor
      · intro heq
        exact hp (by rw [heq])
      · intro hm
        exact hp (pathParents_iff.mp hm).1
  · decide

/-! ## Lemmas about `list_dir` (C3) -/

lemma mem_dedupSeen {x : String} {l seen : List String} :
    x ∈ dedupSeen seen l ↔ x ∈ l ∧ x ∉ seen := by
  induction l generalizing seen with
  | nil => simp [dedupSeen]
  | cons a t ih =>
    unfold dedupSeen
    by_cases ha : a ∈ seen
    · rw [if_pos ha, ih, List.mem_cons]
      constructor
      · rintro ⟨h1, h2⟩
        exact ⟨Or.inr h1, h2⟩
      · rintro ⟨h1 | h1, h2⟩
        · exact absurd (h1 ▸ ha) h2
        · exact ⟨h1, h2⟩
    · rw [if_neg ha, List.mem_cons, List.mem_cons]
      constructor
      · rintro (rfl | h)
        · exact ⟨Or.inl rfl, ha⟩
        · rw [ih] at h
          exact ⟨Or.inr h.1, fun hs => h.2 (List.mem_cons_of_mem a hs)⟩
      · rintro ⟨rfl | h1, h2⟩
        · exact Or.inl rfl
        · by_cases hxa : x = a
          · exact Or.inl hxa
          · exact Or.inr (ih.mpr ⟨h1, by simp [List.mem_cons, hxa, h2]⟩)

lemma nodup_dedupSeen (seen l : List String) : (dedupSeen seen l).Nodup := by
  induction l generalizing seen with
  | nil => exact List.nodup_nil
  | cons a t ih =>
    unfold dedupSeen
    split
    · exact ih seen
    · rw [List.nodup_cons]
      exact ⟨fun h => (mem_dedupSeen.mp h).2 (List.mem_cons_self a seen), ih _⟩

lemma sublist_dedupSeen (seen l : List String) : List.Sublist (dedupSeen seen l) l := by
  induction l generalizing seen with
  | nil => exact List.Sublist.refl []
  | cons a t ih =>
    unfold dedupSeen
    split
    · exact (ih seen).cons a
    · exact (ih (a :: seen)).cons₂ a

/-! ## Claim theorem: `list_dir` (C3) -/

/-- C3: `list_dir` returns, on primary (`mlsd`) success, the listed
names with `.` and `..` excluded; when the primary strategy raises, the
de-duplicated final path segments of the fallback (`nlst`) listing,
first-seen order preserved (the result is duplicate-free, is a sublist
of the basename sequence, and keeps exactly its elements); and the empty
list rather than an error when both strategies fail. -/
theorem list_dir_spec (entries raw : List String) (nl : Option (List String)) :
    list_dir (some entries) nl = entries.filter (fun n => n != "." && n != "..") ∧
    list_dir none (some raw) = dedupSeen [] (raw.map lastSegment) ∧
    (dedupSeen [] (raw.map lastSegment)).Nodup ∧
    List.Sublist (dedupSeen [] (raw.map lastSegment)) (raw.map lastSegment) ∧
    (∀ x, x ∈ dedupSeen [] (raw.map lastSegment) ↔ x ∈ raw.map lastSegment) ∧
    list_dir none none = [] :=
  ⟨rfl, rfl, nodup_dedupSeen [] _, sublist_dedupSeen [] _,
    fun x => by rw [mem_dedupSeen]; simp, rfl⟩

/-! ## Lemmas about the scheduler (C4, C9) -/

lemma lookup_insert_self (st : SchedState) (n k : String) :
    lookupKey (insertKey st n k) n = some k := by
  unfold lookupKey insertKey
  rw [List.find?_cons_of_pos _ (by simp)]
  rfl

lemma lookup_insert_ne (st : SchedState) {n m : String} (k : String) (h : n ≠ m) :
    lookupKey (insertKey st n k) m = lookupKey st m := by
  unfold lookupKey insertKey
  rw [List.find?_cons_of_neg _ (by simp [h])]

lemma dueB_name_locked {a : Job} {t : Time} {st : SchedState} {n : String}
    (hd : dueB a t st = true) (h : lookupKey st n = some (keyTime t)) : a.name ≠ n := by
  intro he
  unfold dueB at hd
  rw [he, h] at hd
  simp at hd

lemma checkTick_locked {t : Time} {st : SchedState} {n : String}
    (jobs : List Job) (h : lookupKey st n = some (keyTime t)) :
    countName n (checkTick t jobs st).1 = 0 ∧
    lookupKey (checkTick t jobs st).2 n = lookupKey st n := by
  induction jobs generalizing st with
  | nil => exact ⟨rfl, rfl⟩
  | cons a rest ih =>
    unfold checkTick
    by_cases hd : dueB a t st = true
    · have han : a.name ≠ n := dueB_name_locked hd h
      have hst1 : lookupKey (insertKey st a.name (keyTime t)) n = lookupKey st n :=
        lookup_insert_ne st _ han
      have := @ih (insertKey st a.name (keyTime t)) (hst1.trans h)
      rw [if_pos hd]
      refine ⟨?_, this.2.trans hst1⟩
      unfold countName at this ⊢
      rw [List.countP_cons, this.1, if_neg (by simp [han])]
    · rw [if_neg hd]
      exact ih h

lemma checkTick_count_le_one (t : Time) (jobs : List Job) (st : SchedState) (n : String) :
    countName n (checkTick t jobs st).1 ≤ 1 := by
  induction jobs generalizing st with
  | nil => exact Nat.zero_le 1
  | cons a rest ih =>
    unfold checkTick
    by_cases hd : dueB a t st = true
    · rw [if_pos hd]
      by_cases han : a.name = n
      · have hlock : lookupKey (insertKey st a.name (keyTime t)) n = some (keyTime t) :=
          han ▸ lookup_insert_self st a.name (keyTime t)
        have h0 := (checkTick_locked rest hlock).1
        unfold countName at h0 ⊢
        rw [List.countP_cons, h0]
        simp [han]
      · have := ih (insertKey st a.name (keyTime t))
        unfold countName at this ⊢
        rw [List.countP_cons, if_neg (by simp [han])]
        exact this
    · rw [if_neg hd]
      exact ih st

lemma checkTick_fired_key {t : Time} {st : SchedState} {n : String} {jobs : List Job}
    (h : countName n (checkTick t jobs st).1 ≠ 0) :
    lookupKey (checkTick t jobs st).2 n = some (keyTime t) := by
  induction jobs generalizing st with
  | nil => exact absurd rfl h
  | cons a rest ih =>
    unfold checkTick at h ⊢
    by_cases hd : dueB a t st = true
    · rw [if_pos hd] at h ⊢
      by_cases han : a.name = n
      · have hlock : lookupKey (insertKey st a.name (keyTime t)) n = some (keyTime t) :=
          han ▸ lookup_insert_self st a.name (keyTime t)
        exact (checkTick_locked rest hlock).2.trans hlock
      · apply ih
        unfold countName at h ⊢
        rw [List.countP_cons, if_neg (by simp [han])] at h
        exact h
    · rw [if_neg hd] at h ⊢
      exact ih h

lemma checkTick_none_preserves {t : Time} {st : SchedState} {n : String} {jobs : List Job}
    (h : countName n (checkTick t jobs st).1 = 0) :
    lookupKey (checkTick t jobs st).2 n = lookupKey st n := by
  induction jobs generalizing st with
  | nil => rfl
  | cons a rest ih =>
    unfold checkTick at h ⊢
    by_cases hd : dueB a t st = true
    · rw [if_pos hd] at h ⊢
      unfold countName at h
      rw [List.countP_cons] at h
      have han : a.name ≠ n := by
        intro he
        simp [he] at h
      have h0 : countName n (checkTick t rest (insertKey st a.name (keyTime t))).1 = 0 := by
        unfold countName
        omega
      exact (ih h0).trans (lookup_insert_ne st _ han)
    · rw [if_neg hd] at h ⊢
      exact ih h

lemma runTicks_locked {jobs : List Job} {ticks : List Time} {st : SchedState}
    {n k : String} (hk : ∀ t ∈ ticks, keyTime t = k)
    (h : lookupKey st n = some k) :
    countName n (runTicks jobs ticks st).1 = 0 ∧
    lookupKey (runTicks jobs ticks st).2 n = some k := by
  induction ticks generalizing st with
  | nil => exact ⟨rfl, h⟩
  | cons t ts ih =>
    have hkt : keyTime t = k := hk t (List.mem_cons_self t ts)
    have hlock := checkTick_locked jobs (hkt.symm ▸ h)
    have hrest := ih (fun u hu => hk u (List.mem_cons_of_mem t hu)) (hlock.2.trans h)
    unfold runTicks countName
    rw [List.countP_append]
    unfold countName at hlock hrest
    rw [hlock.1, hrest.1]
    exact ⟨rfl, hrest.2⟩

lemma runTicks_count_le_one (jobs : List Job) (ticks : List Time) (st : SchedState)
    (n k : String) (hk : ∀ t ∈ ticks, keyTime t = k) :
    countName n (runTicks jobs ticks st).1 ≤ 1 := by
  induction ticks generalizing st with
  | nil => exact Nat.zero_le 1
  | cons t ts ih =>
    have hkt : keyTime t = k := hk t (List.mem_cons_self t ts)
    have hk' : ∀ u ∈ ts, keyTime u = k := fun u hu => hk u (List.mem_cons_of_mem t hu)
    unfold runTicks countName
    rw [List.countP_append]
    by_cases h1 : countName n (checkTick t jobs st).1 = 0
    · unfold countName at h1
      rw [h1]
      have := ih ((checkTick t jobs st).2) hk'
      unfold countName at this
      omega
    · have hkey : lookupKey (checkTick t jobs st).2 n = some k :=
        hkt ▸ checkTick_fired_key h1
      have hrest := (@runTicks_locked jobs ts ((checkTick t jobs st).2) n k hk' hkey).1
      have htick := checkTick_count_le_one t jobs st n
      unfold countName at hrest htick
      omega

lemma checkTick_fired_guard {t : Time} {jobs : List Job} {st : SchedState} {j : Job}
    (hj : j ∈ (checkTick t jobs st).1) :
    j.enabled = true ∧ j.days.contains t.day = true ∧ j.hour = t.hour ∧ j.minute = t.minute := by
  induction jobs generalizing st with
  | nil => exact absurd hj (List.not_mem_nil j)
  | cons a rest ih =>
    unfold checkTick at hj
    by_cases hd : dueB a t st = true
    · rw [if_pos hd] at hj
      rcases List.mem_cons.mp hj with rfl | hj
      · unfold dueB at hd
        simp only [Bool.and_eq_true, beq_iff_eq] at hd
        exact ⟨hd.1.1.1.1, hd.1.1.1.2, hd.1.1.2, hd.1.2⟩
      · exact ih hj
    · rw [if_neg hd] at hj
      exact ih hj

/-! ## Claim theorems: scheduler de-duplication (C4) and name keying (C9) -/

/-- C4: across any sequence of scheduler ticks that all observe the same
de-dup key (the same weekday/hour/minute combination), a given job name
is fired at most once — once fired, the recorded key makes every later
tick of that minute skip it.  Moreover any job fired by any single tick
satisfies the scheduler's guards: it is enabled, today's tag is in its
day set, and its configured hour and minute equal the tick's, so a tick
in a different minute cannot fire a job whose hour/minute do not match
again. -/
theorem scheduler_dedup (jobs : List Job) (ticks : List Time) (st st2 : SchedState)
    (n k : String) (t2 : Time) (j : Job)
    (hk : ∀ t ∈ ticks, keyTime t = k)
    (hj : j ∈ (checkTick t2 jobs st2).1) :
    countName n (runTicks jobs ticks st).1 ≤ 1 ∧
    (j.enabled = true ∧ j.days.contains t2.day = true ∧
      j.hour = t2.hour ∧ j.minute = t2.minute) :=
  ⟨runTicks_count_le_one jobs ticks st n k hk, checkTick_fired_guard hj⟩

/-- C4 (witness): one enabled job due Sat 03:00, three ticks inside that
minute: the job fires exactly once over the sequence, and the fired job
satisfies the guard conjunction. -/
theorem scheduler_dedup_witness :
    countName "world-backup" (runTicks [jobEx] [timeEx, timeEx, timeEx] []).1 ≤ 1 ∧
    (jobEx.enabled = true ∧ jobEx.days.contains timeEx.day = true ∧
      jobEx.hour = timeEx.hour ∧ jobEx.minute = timeEx.minute) :=
  scheduler_dedup [jobEx] [timeEx, timeEx, timeEx] [] [] "world-backup" "Sat-03:00"
    timeEx jobEx (by decide) (by decide)

/-- C9: the de-dup table is keyed by job name alone.  If two distinct
enabled jobs share a name and both match the tick's weekday, hour and
minute, and the name has not fired this minute yet, then the tick fires
exactly the first of them: recording the first job's key makes the
second job's guard fail. -/
theorem dedup_keyed_by_name (j1 j2 : Job) (t : Time) (st : SchedState)
    (hname : j1.name = j2.name) (hne : j1 ≠ j2)
    (h1 : dueB j1 t st = true)
    (h2e : j2.enabled = true) (h2d : j2.days.contains t.day = true)
    (h2h : j2.hour = t.hour) (h2m : j2.minute = t.minute) :
    (checkTick t [j1, j2] st).1 = [j1] := by
  unfold checkTick
  rw [if_pos h1]
  have hlock : lookupKey (insertKey st j1.name (keyTime t)) j2.name = some (keyTime t) :=
    hname ▸ lookup_insert_self st j1.name (keyTime t)
  have hd2 : ¬ dueB j2 t (insertKey st j1.name (keyTime t)) = true := by
    unfold dueB
    rw [hlock]
    simp
  show j1 :: (checkTick t [j2] (insertKey st j1.name (keyTime t))).1 = [j1]
  unfold checkTick
  rw [if_neg hd2]
  rfl

/-- C9 (witness): two distinct jobs sharing the name `"world-backup"`,
both enabled and matching Sat 03:00 with an empty de-dup table: the tick
fires only the first. -/
theorem dedup_keyed_by_name_witness :
    (checkTick timeEx [jobEx, jobEx2] []).1 = [jobEx] :=
  dedup_keyed_by_name jobEx jobEx2 timeEx [] (by decide) (by decide) (by decide)
    (by decide) (by decide) (by decide) (by decide)

/-! ## Lemmas about the tree walk (C1, C6, C10) -/

lemma downloadsOf_append (a b : List Act) :
    downloadsOf (a ++ b) = downloadsOf a ++ downloadsOf b := by
  unfold downloadsOf
  exact List.filterMap_append a b _

lemma logsOf_append (a b : List Act) :
    logsOf (a ++ b) = logsOf a ++ logsOf b := by
  unfold logsOf
  exact List.filterMap_append a b _

lemma logsOf_cons_log (r : String) (l : List Act) :
    logsOf (Act.logDownload r :: l) = r :: logsOf l := rfl

mutual
theorem downloadDir_no_cleanup (j : Job) (root : List String) (rd pre : String)
    (t : RTree) : Act.cleanup ∉ (downloadDir j root rd pre t).1 := by
  match t with
  | .file => simp [downloadDir]
  | .dir f =>
    have ih := downloadItems_no_cleanup j root rd pre f
    simp only [downloadDir, List.mem_cons]
    rintro (h | h)
    · cases h
    · exact ih h

theorem downloadItems_no_cleanup (j : Job) (root : List String) (rd pre : String)
    (f : RForest) : Act.cleanup ∉ (downloadItems j root rd pre f).1 := by
  match f with
  | .nil => simp [downloadItems]
  | .cons name child rest =>
    have ih1 := downloadDir_no_cleanup j root (rstripSlash rd ++ "/" ++ name)
      (lstripSlash (pre ++ "/" ++ name)) child
    have ih2 := downloadItems_no_cleanup j root rd pre rest
    unfold downloadItems
    by_cases hc : (j.include_subdirs && isDirB child) = true
    · rw [if_pos hc]
      by_cases hok : (downloadDir j root (rstripSlash rd ++ "/" ++ name)
          (lstripSlash (pre ++ "/" ++ name)) child).2 = true
      · rw [if_pos hok]
        simp only [List.mem_append]
        rintro (h | h)
        · exact ih1 h
        · exact ih2 h
      · rw [if_neg hok]
        exact ih1
    · rw [if_neg hc]
      rcases hsj : safe_join_local root (lstripSlash (pre ++ "/" ++ name)) with e | tgt
      · simp [hsj]
      · simp only [hsj, List.mem_append, List.mem_cons]
        rintro (h | (h | h))
        · revert h
          split <;> simp
        · cases h
        · exact ih2 h
end

mutual
theorem downloadDir_dry (j : Job) (root : List String) (rd pre : String)
    (t : RTree) (hd : j.dry_run = true) :
    downloadsOf (downloadDir j root rd pre t).1 = [] := by
  match t with
  | .file => simp [downloadDir, downloadsOf]
  | .dir f =>
    have ih := downloadItems_dry j root rd pre f hd
    simp only [downloadDir]
    rw [show (Act.enterDir rd :: (downloadItems j root rd pre f).1)
        = [Act.enterDir rd] ++ (downloadItems j root rd pre f).1 from rfl,
      downloadsOf_append, ih]
    rfl

theorem downloadItems_dry (j : Job) (root : List String) (rd pre : String)
    (f : RForest) (hd : j.dry_run = true) :
    downloadsOf (downloadItems j root rd pre f).1 = [] := by
  match f with
  | .nil => simp [downloadItems, downloadsOf]
  | .cons name child rest =>
    have ih1 := downloadDir_dry j root (rstripSlash rd ++ "/" ++ name)
      (lstripSlash (pre ++ "/" ++ name)) child hd
    have ih2 := downloadItems_dry j root rd pre rest hd
    unfold downloadItems
    by_cases hc : (j.include_subdirs && isDirB child) = true
    · rw [if_pos hc]
      by_cases hok : (downloadDir j root (rstripSlash rd ++ "/" ++ name)
          (lstripSlash (pre ++ "/" ++ name)) child).2 = true
      · rw [if_pos hok]
        rw [downloadsOf_append, ih1, ih2]
        rfl
      · rw [if_neg hok]
        exact ih1
    · rw [if_neg hc]
      rcases hsj : safe_join_local root (lstripSlash (pre ++ "/" ++ name)) with e | tgt
      · simp [hsj, downloadsOf]
      · simp only [hsj, hd, if_pos]
        rw [show ((Act.logDownload (rstripSlash rd ++ "/" ++ name) :: (downloadItems j root rd pre rest).1))
            = [Act.logDownload (rstripSlash rd ++ "/" ++ name)] ++ (downloadItems j root rd pre rest).1 from rfl]
        rw [show ([] ++ ([Act.logDownload (rstripSlash rd ++ "/" ++ name)] ++ (downloadItems j root rd pre rest).1))
            = [Act.logDownload (rstripSlash rd ++ "/" ++ name)] ++ (downloadItems j root rd pre rest).1 from rfl]
        rw [downloadsOf_append, ih2]
        rfl
end

mutual
theorem downloadDir_dry_invariant (j1 j2 : Job) (root : List String) (rd pre : String)
    (t : RTree) (hinc : j1.include_subdirs = j2.include_subdirs) :
    logsOf (downloadDir j1 root rd pre t).1 = logsOf (downloadDir j2 root rd pre t).1 ∧
    (downloadDir j1 root rd pre t).2 = (downloadDir j2 root rd pre t).2 := by
  match t with
  | .file => exact ⟨rfl, rfl⟩
  | .dir f =>
    have ih := downloadItems_dry_invariant j1 j2 root rd pre f hinc
    simp only [downloadDir]
    constructor
    · rw [show (Act.enterDir rd :: (downloadItems j1 root rd pre f).1)
          = [Act.enterDir rd] ++ (downloadItems j1 root rd pre f).1 from rfl,
        show (Act.enterDir rd :: (downloadItems j2 root rd pre f).1)
          = [Act.enterDir rd] ++ (downloadItems j2 root rd pre f).1 from rfl,
        logsOf_append, logsOf_append, ih.1]
    · exact ih.2

theorem downloadItems_dry_invariant (j1 j2 : Job) (root : List String) (rd pre : String)
    (f : RForest) (hinc : j1.include_subdirs = j2.include_subdirs) :
    logsOf (downloadItems j1 root rd pre f).1 = logsOf (downloadItems j2 root rd pre f).1 ∧
    (downloadItems j1 root rd pre f).2 = (downloadItems j2 root rd pre f).2 := by
  match f with
  | .nil => exact ⟨rfl, rfl⟩
  | .cons name child rest =>
    have ih1 := downloadDir_dry_invariant j1 j2 root (rstripSlash rd ++ "/" ++ name)
      (lstripSlash (pre ++ "/" ++ name)) child hinc
    have ih2 := downloadItems_dry_invariant j1 j2 root rd pre rest hinc
    unfold downloadItems
    rw [← hinc]
    by_cases hc : (j1.include_subdirs && isDirB child) = true
    · rw [if_pos hc, if_pos hc]
      by_cases hok : (downloadDir j1 root (rstripSlash rd ++ "/" ++ name)
          (lstripSlash (pre ++ "/" ++ name)) child).2 = true
      · rw [if_pos hok, if_pos (ih1.2 ▸ hok)]
        exact ⟨by rw [logsOf_append, logsOf_append, ih1.1, ih2.1], ih2.2⟩
      · rw [if_neg hok, if_neg (ih1.2 ▸ hok)]
        exact ⟨ih1.1, rfl⟩
    · rw [if_neg hc, if_neg hc]
      rcases hsj : safe_join_local root (lstripSlash (pre ++ "/" ++ name)) with e | tgt
      · exact ⟨rfl, rfl⟩
      · constructor
        · rw [logsOf_append, logsOf_append]
          have hlog : ∀ jj : Job, logsOf (if jj.dry_run then ([] : List Act) else [Act.download tgt]) = [] := by
            intro jj
            split <;> rfl
          rw [hlog j1, hlog j2, List.nil_append, List.nil_append,
            logsOf_cons_log, logsOf_cons_log, ih2.1]
        · exact ih2.2
end

theorem downloadItems_flat (j : Job) (root : List String) (rd pre : String) (f : RForest)
    (hinc : j.include_subdirs = false) :
    downloadItems j root rd pre f = flatLeafWalk j root rd pre f := by
  match f with
  | .nil => rfl
  | .cons name child rest =>
    have ih := downloadItems_flat j root rd pre rest hinc
    unfold downloadItems flatLeafWalk
    simp only [hinc, Bool.false_and, Bool.false_eq_true, if_false]
    rcases hsj : safe_join_local root (lstripSlash (pre ++ "/" ++ name)) with e | tgt <;>
      simp [hsj, ih]

theorem flatLeafWalk_no_enter (j : Job) (root : List String) (rd pre : String)
    (f : RForest) (d : String) : Act.enterDir d ∉ (flatLeafWalk j root rd pre f).1 := by
  match f with
  | .nil => simp [flatLeafWalk]
  | .cons name child rest =>
    have ih := flatLeafWalk_no_enter j root rd pre rest d
    unfold flatLeafWalk
    rcases hsj : safe_join_local root (lstripSlash (pre ++ "/" ++ name)) with e | tgt
    · simp [hsj]
    · simp only [hsj, List.mem_append, List.mem_cons]
      rintro (h | (h | h))
      · revert h
        split <;> simp
      · cases h
      · exact ih h

/-! ## Claim theorems: tree walk with `include_subdirs = false` (C1) -/

/-- C1 (counterexample): the claim says that with `include_subdirs`
false a directory entry is skipped silently, with no download attempt.
In the code the `else` branch of `_download_dir` applies to every
non-recursed entry, so a directory entry `"sub"` gets a `download_file`
call (a `RETR` on a directory): the walk of a directory whose sole entry
is itself a directory performs exactly one download attempt, for that
directory entry. -/
theorem include_subdirs_false_cex :
    isDirB (RTree.dir RForest.nil) = true ∧
    downloadsOf (downloadDir { jobEx with include_subdirs := false, dry_run := false }
      ["d"] "/r" "" treeEx).1 = [["d", "sub"]] := by
  decide

/-- C1 (amended): with `include_subdirs` false the walk never recurses
into directory entries, but it does not skip them either: every listed
entry, directory or not, is treated as a leaf — its local target is
resolved and a download is attempted for it (suppressed only by
`dry_run`).  `flatLeafWalk` is that per-entry leaf treatment, and it
emits no directory-entering action. -/
theorem include_subdirs_false_walk (j : Job) (root : List String) (rd pre d : String)
    (f : RForest) (hinc : j.include_subdirs = false) :
    downloadDir j root rd pre (.dir f) =
      (Act.enterDir rd :: (flatLeafWalk j root rd pre f).1, (flatLeafWalk j root rd pre f).2) ∧
    Act.enterDir d ∉ (flatLeafWalk j root rd pre f).1 := by
  constructor
  · simp only [downloadDir, downloadItems_flat j root rd pre f hinc]
  · exact flatLeafWalk_no_enter j root rd pre f d

/-- C1 (witness): the amended walk behaviour at a concrete one-entry
forest whose entry is a directory. -/
theorem include_subdirs_false_walk_witness :
    downloadDir { jobEx with include_subdirs := false } ["d"] "/r" ""
        (.dir (.cons "sub" (.dir .nil) .nil)) =
      (Act.enterDir "/r" ::
        (flatLeafWalk { jobEx with include_subdirs := false } ["d"] "/r" ""
          (.cons "sub" (.dir .nil) .nil)).1,
        (flatLeafWalk { jobEx with include_subdirs := false } ["d"] "/r" ""
          (.cons "sub" (.dir .nil) .nil)).2) ∧
    Act.enterDir "/x" ∉ (flatLeafWalk { jobEx with include_subdirs := false } ["d"] "/r" ""
      (.cons "sub" (.dir .nil) .nil)).1 :=
  include_subdirs_false_walk { jobEx with include_subdirs := false } ["d"] "/r" "" "/x"
    (.cons "sub" (.dir .nil) .nil) (by decide)

/-! ## Lemmas about `run_transfer` -/

lemma run_transfer_dry (j : Job) (root : List String) (rf : String) (src : RTree)
    (hd : j.dry_run = true) : downloadsOf (run_transfer j root rf src).1 = [] := by
  unfold run_transfer
  by_cases hdir : isDirB src = true
  · rw [if_pos hdir]
    exact downloadDir_dry j root rf "" src hd
  · rw [if_neg hdir]
    rcases hsj : safe_join_local root (lastSlashSeg rf) with e | tgt
    · simp [hsj, downloadsOf]
    · simp [hsj, hd, downloadsOf]

lemma run_transfer_invariant (j1 j2 : Job) (root : List String) (rf : String) (src : RTree)
    (hinc : j1.include_subdirs = j2.include_subdirs) :
    logsOf (run_transfer j1 root rf src).1 = logsOf (run_transfer j2 root rf src).1 ∧
    (run_transfer j1 root rf src).2 = (run_transfer j2 root rf src).2 := by
  unfold run_transfer
  by_cases hdir : isDirB src = true
  · simp only [if_pos hdir]
    exact downloadDir_dry_invariant j1 j2 root rf "" src hinc
  · simp only [if_neg hdir]
    rcases hsj : safe_join_local root (lastSlashSeg rf) with e | tgt
    · exact ⟨rfl, rfl⟩
    · refine ⟨?_, rfl⟩
      show logsOf ((if j1.dry_run then ([] : List Act) else [Act.download tgt]) ++ [Act.logDownload rf])
        = logsOf ((if j2.dry_run then ([] : List Act) else [Act.download tgt]) ++ [Act.logDownload rf])
      rw [logsOf_append, logsOf_append]
      have hlog : ∀ jj : Job, logsOf (if jj.dry_run then ([] : List Act) else [Act.download tgt]) = [] := by
        intro jj
        split <;> rfl
      rw [hlog j1, hlog j2]

lemma run_transfer_no_cleanup (j : Job) (root : List String) (rf : String) (src : RTree) :
    Act.cleanup ∉ (run_transfer j root rf src).1 := by
  unfold run_transfer
  by_cases hdir : isDirB src = true
  · rw [if_pos hdir]
    exact downloadDir_no_cleanup j root rf "" src
  · rw [if_neg hdir]
    rcases hsj : safe_join_local root (lastSlashSeg rf) with e | tgt
    · simp [hsj]
    · simp only [hsj, List.mem_append, List.mem_cons]
      rintro (h | (h | h))
      · revert h
        split <;> simp
      · cases h
      · cases h

/-! ## Claim theorem: dry-run writes nothing (C6) -/

/-- C6: with `dry_run` set, a run performs no `download_file` call — in
either the single-file branch or the tree walk — so nothing is written
under the destination root; the "Downloaded" log lines are exactly the
ones a non-dry run of the same job would produce. -/
theorem dry_run_no_writes (j : Job) (pn stamp rf : String) (src : RTree) :
    downloadsOf (run_job { j with dry_run := true } pn stamp rf src).1 = [] ∧
    logsOf (run_job { j with dry_run := true } pn stamp rf src).1 =
      logsOf (run_job { j with dry_run := false } pn stamp rf src).1 := by
  have hinv := run_transfer_invariant { j with dry_run := true } { j with dry_run := false }
    (destRoot j pn stamp) rf src rfl
  have hdry := run_transfer_dry { j with dry_run := true } (destRoot j pn stamp) rf src rfl
  unfold run_job
  rw [show destRoot { j with dry_run := true } pn stamp = destRoot j pn stamp from rfl,
    show destRoot { j with dry_run := false } pn stamp = destRoot j pn stamp from rfl,
    show snapshotCleanupRuns { j with dry_run := true } = snapshotCleanupRuns j from rfl,
    show snapshotCleanupRuns { j with dry_run := false } = snapshotCleanupRuns j from rfl,
    hinv.2]
  by_cases hcond : ((run_transfer { j with dry_run := false } (destRoot j pn stamp) rf src).2
      && snapshotCleanupRuns j) = true
  · simp only [if_pos hcond]
    constructor
    · rw [downloadsOf_append, hdry]
      rfl
    · rw [logsOf_append, logsOf_append, hinv.1]
  · simp only [if_neg hcond]
    exact ⟨hdry, hinv.1⟩

/-! ## Claim theorem: mode matching (C10) -/

/-- C10: the job mode is compared after lowercasing, so the match is
case-insensitive (an uppercase `"SNAPSHOT"` still selects the snapshot
destination); and every mode whose lowercase form is not `"snapshot"` —
`"mirror"` or anything unrecognized — gets the fixed `MIRROR`
destination root and never triggers snapshot cleanup. -/
theorem mode_fallback_mirror (j : Job) (pn stamp rf : String) (src : RTree)
    (hm : lowerStr j.mode ≠ "snapshot") :
    destRoot j pn stamp = [pn, j.name, "MIRROR"] ∧
    snapshotCleanupRuns j = false ∧
    Act.cleanup ∉ (run_job j pn stamp rf src).1 ∧
    destRoot { j with mode := "SNAPSHOT" } pn stamp = [pn, j.name, stamp] := by
  have hb : (lowerStr j.mode == "snapshot") = false := beq_eq_false_iff_ne.mpr hm
  have h1 : destRoot j pn stamp = [pn, j.name, "MIRROR"] := by
    unfold destRoot
    rw [hb]
    rfl
  have h2 : snapshotCleanupRuns j = false := by
    unfold snapshotCleanupRuns
    rw [hb]
    rfl
  refine ⟨h1, h2, ?_, ?_⟩
  · unfold run_job
    rw [h2]
    simp only [Bool.and_false, Bool.false_eq_true, if_false]
    exact run_transfer_no_cleanup j (destRoot j pn stamp) rf src
  · show (if (lowerStr "SNAPSHOT" == "snapshot") = true then [pn, j.name, stamp]
        else [pn, j.name, "MIRROR"]) = [pn, j.name, stamp]
    rw [if_pos (by decide)]

/-- C10 (witness): a job with the unrecognized mode `"BoGuS"` gets the
`MIRROR` destination and no cleanup, while uppercasing `"SNAPSHOT"`
still selects the snapshot destination. -/
theorem mode_fallback_mirror_witness :
    destRoot { jobEx with mode := "BoGuS" } "main" "20240101_000000" =
      ["main", "world-backup", "MIRROR"] ∧
    snapshotCleanupRuns { jobEx with mode := "BoGuS" } = false ∧
    Act.cleanup ∉ (run_job { jobEx with mode := "BoGuS" } "main" "20240101_000000"
      "/data" treeEx).1 ∧
    destRoot { { jobEx with mode := "BoGuS" } with mode := "SNAPSHOT" } "main" "20240101_000000" =
      ["main", "world-backup", "20240101_000000"] :=
  mode_fallback_mirror { jobEx with mode := "BoGuS" } "main" "20240101_000000" "/data" treeEx
    (by decide)

/-! ## Claim theorem: snapshot retention (C5) -/

instance : IsTrans (List Char) (fun a b : List Char => b ≤ a) :=
  ⟨fun _ _ _ h1 h2 => le_trans h2 h1⟩

instance : IsAntisymm (List Char) (fun a b : List Char => b ≤ a) :=
  ⟨fun _ _ h1 h2 => le_antisymm h2 h1⟩

/-- C5: `_cleanup_snapshots` on a non-existing `job_dir` is a no-op;
the descending sort (and hence the deletion set) is the same for every
filesystem iteration order of the snapshot names; the removal loop
attempts exactly the entries beyond the first `keep` of the descending
order — each with its own attempt, for every possible pattern of
`rmtree` failures, so one failure aborts nothing; the kept prefix and
deleted suffix together are a permutation of the snapshots; every kept
name is lexicographically at least every deleted one (so exactly the
`keep` greatest are kept); and the kept prefix has length
`min keep M`. -/
theorem cleanup_retention (l1 l2 : List (List Char)) (keep : Nat)
    (removeFails : List Char → Bool) (hperm : l1.Perm l2) :
    cleanup_snapshots none keep removeFails = [] ∧
    sortSnapsDesc l1 = sortSnapsDesc l2 ∧
    (cleanup_snapshots (some l1) keep removeFails).map Prod.fst =
      (sortSnapsDesc l1).drop keep ∧
    ((sortSnapsDesc l1).take keep ++ (sortSnapsDesc l1).drop keep).Perm l1 ∧
    (∀ x ∈ (sortSnapsDesc l1).take keep, ∀ y ∈ (sortSnapsDesc l1).drop keep, y ≤ x) ∧
    ((sortSnapsDesc l1).take keep).length = min keep l1.length := by
  have hs1 : List.Sorted (fun a b : List Char => b ≤ a) (sortSnapsDesc l1) :=
    List.sorted_insertionSort _ l1
  have hs2 : List.Sorted (fun a b : List Char => b ≤ a) (sortSnapsDesc l2) :=
    List.sorted_insertionSort _ l2
  have hp12 : (sortSnapsDesc l1).Perm (sortSnapsDesc l2) :=
    ((List.perm_insertionSort _ l1).trans hperm).trans (List.perm_insertionSort _ l2).symm
  refine ⟨rfl, List.eq_of_perm_of_sorted hp12 hs1 hs2, ?_, ?_, ?_, ?_⟩
  · unfold cleanup_snapshots
    rw [List.map_map]
    exact List.map_id' _
  · rw [List.take_append_drop]
    exact List.perm_insertionSort _ l1
  · have hpw : List.Pairwise (fun a b : List Char => b ≤ a)
        ((sortSnapsDesc l1).take keep ++ (sortSnapsDesc l1).drop keep) := by
      rw [List.take_append_drop]
      exact hs1
    exact fun x hx y hy => (List.pairwise_append.mp hpw).2.2 x hx y hy
  · rw [List.length_take,
      show (sortSnapsDesc l1).length = l1.length from
        (List.perm_insertionSort (fun a b : List Char => b ≤ a) l1).length_eq]

/-- C5 (witness): three snapshot names `"b" ~ "c" ~ "a"` in two
iteration orders with `keep = 2`: only `"a"` (the lexicographically
least) is attempted for deletion, and all conjuncts evaluate. -/
theorem cleanup_retention_witness :
    cleanup_snapshots none 2 (fun _ => false) = [] ∧
    sortSnapsDesc ["b".data, "c".data, "a".data] =
      sortSnapsDesc ["a".data, "b".data, "c".data] ∧
    (cleanup_snapshots (some ["b".data, "c".data, "a".data]) 2 (fun _ => false)).map Prod.fst =
      (sortSnapsDesc ["b".data, "c".data, "a".data]).drop 2 ∧
    ((sortSnapsDesc ["b".data, "c".data, "a".data]).take 2 ++
      (sortSnapsDesc ["b".data, "c".data, "a".data]).drop 2).Perm
      ["b".data, "c".data, "a".data] ∧
    (∀ x ∈ (sortSnapsDesc ["b".data, "c".data, "a".data]).take 2,
      ∀ y ∈ (sortSnapsDesc ["b".data, "c".data, "a".data]).drop 2, y ≤ x) ∧
    ((sortSnapsDesc ["b".data, "c".data, "a".data]).take 2).length =
      min 2 (["b".data, "c".data, "a".data] : List (List Char)).length :=
  cleanup_retention ["b".data, "c".data, "a".data] ["a".data, "b".data, "c".data] 2
    (fun _ => false) (by decide)

end AutomationZ
